import Mathlib

/-!
Verification of the pycsou operator/solver core against its specification.

The Python sources under `src/pycsou` are shallowly embedded here:
* norm and indicator functionals (`operator/func/norm.py`, `operator/func/indicator.py`)
  are modelled over `ℚ` (exact arithmetic stand-in for the float computations),
  except for the ℓ2-ball which genuinely needs a square root and is modelled over `ℝ`;
* the Conjugate Gradient solver (`opt/solver/cg.py`) is modelled over `ℝ`;
* fallible code paths (scipy `brentq` on a bracket without a sign change, numpy
  reductions over empty arrays) are modelled with `Option`, `none` marking the
  raised `ValueError`.
-/

namespace Pycsou

section VecOps

variable {α : Type} [LinearOrderedField α]

/-- `xp.sign`: sign of a scalar (`0` at `0`). -/
def sgn (a : α) : α :=
  if 0 < a then 1 else if a < 0 then -1 else 0

/-- Elementwise vector addition (numpy `+` on equal-shape arrays). -/
def vplus (u v : List α) : List α := List.zipWith (fun a b => a + b) u v

/-- Elementwise vector subtraction (numpy `-` on equal-shape arrays). -/
def vsub (u v : List α) : List α := List.zipWith (fun a b => a - b) u v

/-- Scalar times vector (numpy broadcasting of a scalar factor). -/
def smulL (c : α) (v : List α) : List α := v.map (fun a => c * a)

/-- `(u * v).sum(axis=-1)`: inner product of two vectors. -/
def dotL (u v : List α) : α := (List.zipWith (fun a b => a * b) u v).sum

/-- `pylinalg.norm(arr, ord=1, axis=-1)`: sum of absolute values. -/
def sumAbs (v : List α) : α := (v.map (fun a => |a|)).sum

/-- Sum of squares of the entries; `xp.linalg.norm(arr)` is its square root. -/
def sumSq (v : List α) : α := (v.map (fun a => a * a)).sum

/-- `xp.max(xp.fabs(arr))`: largest absolute value (`0` on the empty vector). -/
def maxAbs (v : List α) : α := (v.map (fun a => |a|)).foldr max 0

end VecOps

/-! ### `operator/func/norm.py`: `L1Norm` -/

/-- `L1Norm.apply`: `pylinalg.norm(arr, ord=1, axis=-1)`. -/
def L1Norm_apply (arr : List ℚ) : ℚ := sumAbs arr

/-- `L1Norm.prox`: `y = xp.fmax(0, xp.fabs(arr) - tau); y *= xp.sign(arr)`. -/
def L1Norm_prox (arr : List ℚ) (tau : ℚ) : List ℚ :=
  arr.map (fun a => max 0 (|a| - tau) * sgn a)

/-! ### `operator/func/norm.py`: `SquaredL1Norm` prox algorithms -/

/-- `xp.sort(xp.abs(arr))[::-1]`: absolute values sorted in descending order. -/
def descSort (l : List ℚ) : List ℚ :=
  (List.insertionSort (fun a b => a ≤ b) l).reverse

/-- The per-index coefficient `2*tau / (1 + (i+1)*2*tau)` of `_prox_sort`. -/
def coefS (tau : ℚ) (i : ℕ) : ℚ := 2 * tau / (1 + ((i : ℚ) + 1) * 2 * tau)

/-- `cumsum_z[i]`: sum of the first `i+1` entries of `z`. -/
def cumsumAt (z : List ℚ) (i : ℕ) : ℚ := (z.take (i + 1)).sum

/-- `test_array[i] = z[i] - (2*tau/(1+(i+1)*2*tau)) * cumsum_z[i]`. -/
def testv (z : List ℚ) (tau : ℚ) (i : ℕ) : ℚ :=
  z.getD i 0 - coefS tau i * cumsumAt z i

/-- The full `test_array` of `_prox_sort`. -/
def testArray (z : List ℚ) (tau : ℚ) : List ℚ :=
  (List.range z.length).map (testv z tau)

/-- `xp.max(xp.nonzero(l > 0)[0])`: index of the last strictly positive entry;
`none` models the `ValueError` numpy raises when reducing an empty index set. -/
def lastPos : List ℚ → Option ℕ
  | [] => none
  | a :: t =>
    match lastPos t with
    | some j => some (j + 1)
    | none => if 0 < a then some 0 else none

/-- `SquaredL1Norm._prox_sort`: sort `|arr|` descending, build the cumulative-sum
test array, select `max_nzi`, derive the threshold and soft-threshold `arr`.
`none` models the `ValueError` raised when no test entry is strictly positive. -/
def sortProx (arr : List ℚ) (tau : ℚ) : Option (List ℚ) :=
  let z := descSort (arr.map (fun a => |a|))
  match lastPos (testArray z tau) with
  | none => none
  | some k =>
    some (arr.map (fun a => max 0 (|a| - coefS tau k * cumsumAt z k) * sgn a))

/-- `SquaredL1Norm._prox_root`, parametrized by `s` standing for
`xp.sqrt(tau/mu_star)` where `mu_star` is the `brentq` root: the code computes
`lambda_ = fmax(|arr| * sqrt(tau/mu_star) - 2*tau, 0)` and returns
`lambda_ * arr / (lambda_ + 2*tau)`; the guard is `xp.linalg.norm(arr) > 0`,
i.e. the sum of squares is positive. -/
def prox_root (arr : List ℚ) (tau s : ℚ) : List ℚ :=
  if 0 < sumSq arr then
    arr.map (fun a =>
      max (|a| * s - 2 * tau) 0 * a / (max (|a| * s - 2 * tau) 0 + 2 * tau))
  else arr

/-- The root condition defining `s` in `prox_root`: substituting
`s = sqrt(tau/mu)` in the code's `func(mu) = sum(fmax(|arr|*sqrt(tau/mu) - 2*tau, 0)) - 1`,
`brentq` returns the `mu` (hence the `s`) at which this sum equals `1`. -/
def rootEqn (arr : List ℚ) (tau s : ℚ) : Prop :=
  (arr.map (fun a => max (|a| * s - 2 * tau) 0)).sum = 1

/-- The common threshold equation of both squared-ℓ1 prox algorithms, as a
function of the soft threshold `c`: both compute `softthreshold(x, c)` for
the `c > 0` with `gsum |x| c = c / (2*tau)`. -/
def gsum (l : List ℚ) (c : ℚ) : ℚ := (l.map (fun a => max (a - c) 0)).sum

/-! ### `operator/func/norm.py`: `LInftyNorm` and the shared exact root finder

`LInftyNorm.prox` and `L1Ball.prox` both call `sciop.brentq` on
`func(mu) = sum(fmax(|arr| - mu, 0)) - c` over the bracket `[0, max|arr|]`
(`c` being `tau` resp. `radius`).  The function is piecewise linear, so the
root `brentq` converges to is computed here exactly by scanning the sorted
absolute values; `brentq` itself raises `ValueError` when the bracket carries
no sign change, modelled by the `Option`/failure guard at each call site. -/

/-- Scan for the exact root of `sum(fmax(z_i - mu, 0)) = c` over descending `z`:
for each prefix length `k`, the candidate `(S_k - c)/k` is the root if exactly
the first `k` entries stay above it; the last candidate below its entry wins. -/
def pwlRootGo (c : ℚ) : List ℚ → ℚ → ℕ → ℚ → ℚ
  | [], _, _, best => best
  | z :: zs, S, k, best =>
    let S1 := S + z
    let k1 := k + 1
    let cand := (S1 - c) / (k1 : ℚ)
    pwlRootGo c zs S1 k1 (if cand < z then cand else best)

/-- Exact value of the `brentq` root of `sum(fmax(|arr| - mu, 0)) - c = 0`. -/
def pwlRoot (arr : List ℚ) (c : ℚ) : ℚ :=
  pwlRootGo c (descSort (arr.map (fun a => |a|))) 0 0 0

/-- `LInftyNorm.prox`: `brentq` on `sum(fmax(|arr| - mu, 0)) - tau` over
`[0, max|arr|]`, then `y = fmin(|arr|, mu_star); y *= sign(arr)`.  `none`
models the `ValueError` `brentq` raises when `func` has the same strict sign
at both bracket ends (in particular on the all-zero input, where the bracket
degenerates to `[0, 0]` with `func = -tau` at both ends). -/
def lInftyNorm_prox (arr : List ℚ) (tau : ℚ) : Option (List ℚ) :=
  let f := fun mu => (arr.map (fun a => max (|a| - mu) 0)).sum - tau
  if 0 < f 0 * f (maxAbs arr) then none
  else some (arr.map (fun a => min |a| (pwlRoot arr tau) * sgn a))

/-! ### `operator/func/indicator.py`: the three ball indicators -/

/-- `L1Ball.prox`: identity inside the ball, else `brentq` on
`sum(fmax(|arr| - mu, 0)) - radius` over `[0, max|arr|]` followed by
soft-thresholding at the root.  `none` models the `brentq` `ValueError`
on a bracket without sign change. -/
def L1Ball_prox (radius : ℚ) (arr : List ℚ) (tau : ℚ) : Option (List ℚ) :=
  if sumAbs arr ≤ radius then some arr
  else
    let f := fun mu => (arr.map (fun a => max (|a| - mu) 0)).sum - radius
    if 0 < f 0 * f (maxAbs arr) then none
    else some (arr.map (fun a => max 0 (|a| - pwlRoot arr radius) * sgn a))

/-- `LInfinityBall.prox`: identity inside the ball, else
`y = xp.fmin(xp.fabs(arr), radius); y *= xp.sign(arr)`. -/
def LInfinityBall_prox (radius : ℚ) (arr : List ℚ) (tau : ℚ) : List ℚ :=
  if maxAbs arr ≤ radius then arr
  else arr.map (fun a => min |a| radius * sgn a)

/-! ### Real-valued part: ℓ2 norm, ℓ2 ball, Conjugate Gradient -/

/-- `xp.linalg.norm(arr)`: the Euclidean norm. -/
noncomputable def norm2 (v : List ℝ) : ℝ := Real.sqrt (sumSq v)

/-- `L2Ball.prox`: identity inside the ball, else `radius * arr / arr_norm`. -/
noncomputable def L2Ball_prox (radius : ℝ) (arr : List ℝ) (tau : ℝ) : List ℝ :=
  if norm2 arr ≤ radius then arr
  else arr.map (fun a => radius * a / norm2 arr)

/-- The CG solver state `self._mstate`, one batch row: keys `b`, `x`,
`residual`, `conjugate_dir`. -/
@[ext]
structure MState where
  b : List ℝ
  x : List ℝ
  residual : List ℝ
  conjugate_dir : List ℝ

/-- `CG.m_step`, one batch row, in source order: `Ap = A.apply(p)`;
`rr = norm(r)**2`; `alpha = rr / (p*Ap).sum()`; `x += alpha*p`;
`r -= alpha*Ap`; `beta = norm(r)**2 / rr` (with the already-updated `r`);
`p *= beta; p += r`. -/
noncomputable def m_step (A : List ℝ → List ℝ) (mst : MState) : MState :=
  let x := mst.x
  let r := mst.residual
  let p := mst.conjugate_dir
  let Ap := A p
  let rr := norm2 r ^ 2
  let alpha := rr / dotL p Ap
  let x1 := vplus x (smulL alpha p)
  let r1 := vsub r (smulL alpha Ap)
  let beta := norm2 r1 ^ 2 / rr
  let p1 := vplus (smulL beta p) r1
  ⟨mst.b, x1, r1, p1⟩

/-- Modelled from the spec: `pycsou.opt.stop.AbsError` (the module
`pycsou/opt/stop.py` is not under `src/`) tracks the norm of `f` applied to
the monitored variable and declares convergence when that norm falls below
the absolute tolerance `eps`. -/
structure AbsErrorCrit where
  eps : ℝ
  f : List ℝ → List ℝ

/-- Modelled from the spec: the stop decision of `AbsError` for the current
value `x` of the monitored variable. -/
noncomputable def AbsErrorCrit.stop (c : AbsErrorCrit) (x : List ℝ) : Prop :=
  norm2 (c.f x) < c.eps

/-- `CG.default_stop_crit`: `AbsError` with `eps = 1e-4`, `norm = 2`, and
`f = explicit_residual`, which recomputes `mst["b"] - A.apply(x)` from the
monitored iterate `x`. -/
noncomputable def default_stop_crit (A : List ℝ → List ℝ) (mst : MState) :
    AbsErrorCrit :=
  ⟨1 / 10000, fun x => vsub mst.b (A x)⟩

/-! ### `operator/func/norm.py`: `SquaredL2Norm._hessian` -/

/-- The dimension data of `SquaredL2Norm`: `shape = (1, dim)` with `dim`
optional (`None` means domain-agnostic). -/
structure SquaredL2Norm where
  dim : Option ℕ

/-- `IdentityOperator` (`linop/base.py`) of a given dimension, standing for
the `IdentityOp(dim=...)` that `_hessian` builds. -/
structure IdOp where
  dim : ℕ

/-- `IdentityOperator.apply`: returns its argument unchanged. -/
def IdOp.apply (_op : IdOp) (arr : List ℚ) : List ℚ := arr

/-- `SquaredL2Norm._hessian`: raises `ValueError` naming the missing `dim`
precondition when domain-agnostic, else returns the identity operator of
dimension `dim`. -/
def SquaredL2Norm.hessian (f : SquaredL2Norm) : Except String IdOp :=
  match f.dim with
  | none => Except.error "hessian: domain-agnostic functionals unsupported."
  | some d => Except.ok ⟨d⟩

/-! ## Theorems -/

/-! ### Helper lemmas -/

lemma sumSq_nonneg (v : List ℝ) : 0 ≤ sumSq v := by
  refine List.sum_nonneg ?_
  intro a ha
  obtain ⟨b, _, rfl⟩ := List.mem_map.1 ha
  exact mul_self_nonneg b

lemma norm2_sq (v : List ℝ) : norm2 v ^ 2 = sumSq v :=
  Real.sq_sqrt (sumSq_nonneg v)

lemma vplus_comm {α : Type} [LinearOrderedField α] (u v : List α) :
    vplus u v = vplus v u :=
  List.zipWith_comm_of_comm _ add_comm u v

lemma norm2_smulL (c : ℝ) (v : List ℝ) : norm2 (smulL c v) = |c| * norm2 v := by
  have h : sumSq (smulL c v) = c ^ 2 * sumSq v := by
    unfold sumSq smulL
    rw [List.map_map]
    have : ((fun a => a * a) ∘ fun a => c * a) = fun a => c ^ 2 * (a * a) := by
      funext a
      simp only [Function.comp_apply]
      ring
    rw [this, List.sum_map_mul_left]
  unfold norm2
  rw [h, Real.sqrt_mul (sq_nonneg c), Real.sqrt_sq_eq_abs]

/-- **C4.** `L1Norm.apply` is the sum of absolute values and `L1Norm.prox`
is the elementwise soft-threshold `sign(x) * max(0, |x| - tau)`; in
particular `apply [0,0,0,0,0] = 0`, `apply [-3,-2,-1,0,1] = 7` and
`prox [-3,-2,-1,0,1] 1 = [-2,-1,0,0,0]`. -/
theorem l1norm_apply_prox :
    (∀ x : List ℚ, L1Norm_apply x = (x.map (fun a => |a|)).sum) ∧
    (∀ (x : List ℚ) (tau : ℚ), 0 < tau →
      L1Norm_prox x tau = x.map (fun a => sgn a * max 0 (|a| - tau))) ∧
    L1Norm_apply [0, 0, 0, 0, 0] = 0 ∧
    L1Norm_apply [-3, -2, -1, 0, 1] = 7 ∧
    L1Norm_prox [-3, -2, -1, 0, 1] 1 = [-2, -1, 0, 0, 0] := by
  refine ⟨fun x => rfl, fun x tau _ => ?_, by norm_num [L1Norm_apply, sumAbs],
    by norm_num [L1Norm_apply, sumAbs], by norm_num [L1Norm_prox, sgn]⟩
  unfold L1Norm_prox
  exact List.map_congr_left fun a _ => mul_comm _ _

/-- Witness for C4: the prox clause applied at `x = [5]`, `tau = 2`. -/
theorem l1norm_apply_prox_witness :
    L1Norm_prox [(5 : ℚ)] 2 = [(5 : ℚ)].map (fun a => sgn a * max 0 (|a| - 2)) :=
  l1norm_apply_prox.2.1 [(5 : ℚ)] 2 (by norm_num)

/-- **C9.** `SquaredL2Norm._hessian` fails (with the message naming the
missing `dim` precondition) exactly when the functional is domain-agnostic;
with `dim` set it returns the identity operator of that dimension. -/
theorem squaredL2_hessian :
    ∀ f : SquaredL2Norm,
      ((∃ e, f.hessian = Except.error e) ↔ f.dim = none) ∧
      (f.dim = none →
        f.hessian =
          Except.error "hessian: domain-agnostic functionals unsupported.") ∧
      (∀ d, f.dim = some d →
        f.hessian = Except.ok ⟨d⟩ ∧ ∀ arr : List ℚ, IdOp.apply ⟨d⟩ arr = arr) := by
  rintro ⟨dim⟩
  cases dim with
  | none =>
      refine ⟨⟨fun _ => rfl, fun _ => ⟨_, rfl⟩⟩, fun _ => rfl, ?_⟩
      intro d h
      cases h
  | some d =>
      refine ⟨⟨?_, ?_⟩, ?_, ?_⟩
      · rintro ⟨e, he⟩
        cases he
      · intro h
        cases h
      · intro h
        cases h
      · rintro d' h
        cases h
        exact ⟨rfl, fun arr => rfl⟩

/-- Witness for C9: the error branch at `dim = none` and the identity
operator at `dim = 2`. -/
theorem squaredL2_hessian_witness :
    SquaredL2Norm.hessian ⟨none⟩ =
      Except.error "hessian: domain-agnostic functionals unsupported." ∧
    SquaredL2Norm.hessian ⟨some 2⟩ = Except.ok ⟨2⟩ ∧
    IdOp.apply ⟨2⟩ [(5 : ℚ), 7] = [5, 7] := by
  refine ⟨(squaredL2_hessian ⟨none⟩).2.1 rfl, ?_, ?_⟩
  · exact ((squaredL2_hessian ⟨some 2⟩).2.2 2 rfl).1
  · exact ((squaredL2_hessian ⟨some 2⟩).2.2 2 rfl).2 [5, 7]

/-- **C3 (code bug).** Contrary to the spec's edge-case policy, the code does
not return an all-zero input unchanged: `LInftyNorm.prox` hands `brentq` the
degenerate bracket `[0, 0]` on which `func` equals `-tau` at both ends (no
sign change, `ValueError`), and `SquaredL1Norm._prox_sort` reduces an empty
index set with `xp.max` (`ValueError`).  Both failures are evaluated here on
`arr = [0, 0, 0]`, `tau = 1`. -/
theorem prox_zero_input_failure :
    lInftyNorm_prox [0, 0, 0] 1 = none ∧ sortProx [0, 0, 0] 1 = none := by
  constructor
  · norm_num [lInftyNorm_prox, maxAbs]
  · norm_num [sortProx, descSort, List.insertionSort, List.orderedInsert,
      testArray, testv, coefS, cumsumAt, lastPos, List.range_succ]

/-- **C10.** The prox of each ball indicator ignores the scale parameter:
for all `tau1, tau2 > 0` (indeed for all of them), the result depends only
on the input and the radius. -/
theorem ball_prox_tau_independent :
    ∀ (radius tau1 tau2 : ℚ) (x : List ℚ) (radius2 tau3 tau4 : ℝ) (y : List ℝ),
      0 < tau1 → 0 < tau2 → 0 < tau3 → 0 < tau4 →
      L1Ball_prox radius x tau1 = L1Ball_prox radius x tau2 ∧
      LInfinityBall_prox radius x tau1 = LInfinityBall_prox radius x tau2 ∧
      L2Ball_prox radius2 y tau3 = L2Ball_prox radius2 y tau4 := by
  intro radius tau1 tau2 x radius2 tau3 tau4 y _ _ _ _
  exact ⟨rfl, rfl, rfl⟩

/-- Witness for C10: concrete scale parameters `1` and `2` on concrete
inputs, with both taus positive. -/
theorem ball_prox_tau_independent_witness :
    L1Ball_prox 1 [(3 : ℚ), -1] 1 = L1Ball_prox 1 [(3 : ℚ), -1] 2 ∧
    LInfinityBall_prox 1 [(3 : ℚ), -1] 1 = LInfinityBall_prox 1 [(3 : ℚ), -1] 2 ∧
    L2Ball_prox 1 [(3 : ℝ), -1] 1 = L2Ball_prox 1 [(3 : ℝ), -1] 2 :=
  ball_prox_tau_independent 1 1 2 [(3 : ℚ), -1] 1 1 2 [(3 : ℝ), -1]
    (by norm_num) (by norm_num) (by norm_num) (by norm_num)

/-! ### Helper lemmas for the squared-ℓ1 prox algorithms -/

lemma descSort_perm (l : List ℚ) : List.Perm (descSort l) l :=
  (List.insertionSort (fun a b => a ≤ b) l).reverse_perm.trans
    (List.perm_insertionSort _ l)

lemma descSort_sorted (l : List ℚ) :
    List.Sorted (fun a b => a ≥ b) (descSort l) := by
  unfold descSort
  rw [List.Sorted, List.pairwise_reverse]
  exact List.sorted_insertionSort (fun a b => a ≤ b) l

lemma sorted_getD_anti (z : List ℚ)
    (hz : List.Sorted (fun a b => a ≥ b) z) {i j : ℕ} (hij : i ≤ j)
    (hj : j < z.length) : z.getD j 0 ≤ z.getD i 0 := by
  have hi : i < z.length := lt_of_le_of_lt hij hj
  rw [List.getD_eq_getElem z 0 hi, List.getD_eq_getElem z 0 hj]
  exact List.Sorted.rel_get_of_le hz (a := ⟨i, hi⟩) (b := ⟨j, hj⟩) hij

lemma mem_take_ge :
    ∀ (z : List ℚ), List.Sorted (fun a b => a ≥ b) z →
      ∀ k, k < z.length → ∀ a ∈ z.take (k + 1), z.getD k 0 ≤ a := by
  intro z
  induction z with
  | nil => intro _ k hk; simp at hk
  | cons b t ih =>
    intro hs k hk a ha
    cases k with
    | zero =>
      simp only [List.take_succ_cons, List.take_zero, List.mem_singleton] at ha
      simp [ha]
    | succ m =>
      simp only [List.take_succ_cons, List.mem_cons] at ha
      rw [List.getD_cons_succ]
      rcases ha with rfl | ha
      · have hmlen : m < t.length := by simpa using Nat.lt_of_succ_lt_succ hk
        have hmem : t.getD m 0 ∈ t := by
          rw [List.getD_eq_getElem t 0 hmlen]
          exact List.getElem_mem hmlen
        exact List.rel_of_sorted_cons hs _ hmem
      · exact ih (List.Sorted.of_cons hs) m (by simpa using Nat.lt_of_succ_lt_succ hk) a ha

lemma mem_drop_le :
    ∀ (z : List ℚ), List.Sorted (fun a b => a ≥ b) z →
      ∀ m, m < z.length → ∀ a ∈ z.drop m, a ≤ z.getD m 0 := by
  intro z
  induction z with
  | nil => intro _ m hm; simp at hm
  | cons b t ih =>
    intro hs m hm a ha
    cases m with
    | zero =>
      simp only [List.drop_zero, List.mem_cons] at ha
      rw [List.getD_cons_zero]
      rcases ha with rfl | ha
      · exact le_refl a
      · exact List.rel_of_sorted_cons hs _ ha
    | succ m =>
      simp only [List.drop_succ_cons] at ha
      rw [List.getD_cons_succ]
      exact ih (List.Sorted.of_cons hs) m (by simpa using Nat.lt_of_succ_lt_succ hm) a ha

lemma sum_map_sub_const (l : List ℚ) (c : ℚ) :
    (l.map (fun a => a - c)).sum = l.sum - l.length * c := by
  induction l with
  | nil => simp
  | cons a t ih =>
    simp only [List.map_cons, List.sum_cons, ih, List.length_cons]
    push_cast
    ring

lemma lastPos_none_spec :
    ∀ (l : List ℚ), lastPos l = none → ∀ j, j < l.length → ¬ 0 < l.getD j 0 := by
  intro l
  induction l with
  | nil => intro _ j hj; simp at hj
  | cons a t ih =>
    intro h j hj
    cases ht : lastPos t with
    | some m => simp [lastPos, ht] at h
    | none =>
      simp only [lastPos, ht] at h
      by_cases ha : 0 < a
      · rw [if_pos ha] at h; cases h
      · cases j with
        | zero => simpa using ha
        | succ m =>
          rw [List.getD_cons_succ]
          exact ih ht m (by simpa using Nat.lt_of_succ_lt_succ hj)

lemma lastPos_some_spec :
    ∀ (l : List ℚ) (k : ℕ), lastPos l = some k →
      k < l.length ∧ 0 < l.getD k 0 ∧
        ∀ j, j < l.length → 0 < l.getD j 0 → j ≤ k := by
  intro l
  induction l with
  | nil => intro k h; cases h
  | cons a t ih =>
    intro k h
    cases ht : lastPos t with
    | some m =>
      simp only [lastPos, ht, Option.some.injEq] at h
      subst h
      obtain ⟨hm, hpos, hmax⟩ := ih m ht
      refine ⟨by simpa using Nat.succ_lt_succ hm, by simpa using hpos, ?_⟩
      intro j hj hjpos
      cases j with
      | zero => exact Nat.zero_le _
      | succ i =>
        have : i ≤ m :=
          hmax i (by simpa using Nat.lt_of_succ_lt_succ hj)
            (by simpa using hjpos)
        exact Nat.succ_le_succ this
    | none =>
      simp only [lastPos, ht] at h
      by_cases ha : 0 < a
      · rw [if_pos ha, Option.some.injEq] at h
        subst h
        refine ⟨by simp, by simpa using ha, ?_⟩
        intro j hj hjpos
        cases j with
        | zero => exact le_refl 0
        | succ i =>
          rw [List.getD_cons_succ] at hjpos
          exact absurd hjpos (lastPos_none_spec t ht i (by simpa using Nat.lt_of_succ_lt_succ hj))
      · rw [if_neg ha] at h; cases h

lemma testArray_length (z : List ℚ) (tau : ℚ) :
    (testArray z tau).length = z.length := by
  simp [testArray]

lemma testArray_getD (z : List ℚ) (tau : ℚ) {j : ℕ} (hj : j < z.length) :
    (testArray z tau).getD j 0 = testv z tau j := by
  unfold testArray
  rw [List.getD_eq_getElem _ _ (by simpa using hj)]
  simp

lemma cumsumAt_zero (z : List ℚ) (hz : 0 < z.length) :
    cumsumAt z 0 = z.getD 0 0 := by
  cases z with
  | nil => simp at hz
  | cons a t => simp [cumsumAt]

lemma cumsumAt_succ (z : List ℚ) (k : ℕ) (hk : k + 1 < z.length) :
    cumsumAt z (k + 1) = cumsumAt z k + z.getD (k + 1) 0 := by
  unfold cumsumAt
  rw [List.sum_take_succ z (k + 1) hk, List.getD_eq_getElem z 0 hk]

lemma cumsumAt_pos (z : List ℚ) (hpos : 0 < z.getD 0 0)
    (hnn : ∀ a ∈ z, 0 ≤ a) (k : ℕ) : 0 < cumsumAt z k := by
  cases z with
  | nil => simp at hpos
  | cons a t =>
    unfold cumsumAt
    rw [List.take_succ_cons, List.sum_cons]
    have h0 : (0 : ℚ) < a := by simpa using hpos
    have h1 : 0 ≤ (t.take k).sum :=
      List.sum_nonneg fun b hb =>
        hnn b (List.mem_cons_of_mem a (List.take_subset k t hb))
    linarith

lemma descSort_abs_nonneg (x : List ℚ) :
    ∀ a ∈ descSort (x.map (fun b => |b|)), 0 ≤ a := by
  intro a ha
  have h : a ∈ x.map (fun b => |b|) := (descSort_perm _).mem_iff.1 ha
  obtain ⟨b, _, rfl⟩ := List.mem_map.1 h
  exact abs_nonneg b

lemma descSort_abs_length_pos (x : List ℚ) (hx : ∃ a ∈ x, a ≠ 0) :
    0 < (descSort (x.map (fun b => |b|))).length := by
  obtain ⟨b, hb, _⟩ := hx
  have hmem : |b| ∈ descSort (x.map (fun c => |c|)) :=
    (descSort_perm _).mem_iff.2 (List.mem_map_of_mem _ hb)
  exact List.length_pos.2 (List.ne_nil_of_mem hmem)

lemma descSort_head_pos (x : List ℚ) (hx : ∃ a ∈ x, a ≠ 0) :
    0 < (descSort (x.map (fun b => |b|))).getD 0 0 := by
  obtain ⟨b, hb, hb0⟩ := hx
  have hmem : |b| ∈ descSort (x.map (fun c => |c|)) :=
    (descSort_perm _).mem_iff.2 (List.mem_map_of_mem _ hb)
  have hlen : 0 < (descSort (x.map (fun c => |c|))).length :=
    List.length_pos.2 (List.ne_nil_of_mem hmem)
  have hle : |b| ≤ (descSort (x.map (fun c => |c|))).getD 0 0 :=
    mem_drop_le _ (descSort_sorted _) 0 hlen |b| (by simpa using hmem)
  exact lt_of_lt_of_le (abs_pos.2 hb0) hle

lemma coefS_pos (tau : ℚ) (htau : 0 < tau) (k : ℕ) : 0 < coefS tau k := by
  unfold coefS
  have hk : (0 : ℚ) ≤ (k : ℚ) := Nat.cast_nonneg k
  apply div_pos (by linarith)
  nlinarith

lemma testv_zero_pos (z : List ℚ) (tau : ℚ) (htau : 0 < tau)
    (h0 : 0 < z.getD 0 0) (hlen : 0 < z.length) : 0 < testv z tau 0 := by
  unfold testv
  rw [cumsumAt_zero z hlen]
  have hc : coefS tau 0 < 1 := by
    unfold coefS
    rw [div_lt_one (by push_cast; linarith)]
    push_cast
    linarith
  nlinarith [mul_pos h0 (sub_pos.2 hc)]

lemma gsum_split (l : List ℚ) (m : ℕ) (c : ℚ) :
    gsum l c = gsum (l.take m) c + gsum (l.drop m) c := by
  unfold gsum
  rw [← List.sum_append, ← List.map_append, List.take_append_drop]

lemma gsum_zero_unique (z : List ℚ) (tau c c2 : ℚ) (htau : 0 < tau)
    (h1 : gsum z c = c / (2 * tau)) (h2 : gsum z c2 = c2 / (2 * tau)) :
    c = c2 := by
  have h2t : (0 : ℚ) < 2 * tau := by linarith
  rcases lt_trichotomy c c2 with h | h | h
  · exfalso
    have hg : gsum z c2 ≤ gsum z c :=
      List.sum_le_sum fun a _ => max_le_max (sub_le_sub_left h.le a) (le_refl 0)
    rw [h1, h2] at hg
    have := (div_le_div_right h2t).1 hg
    linarith
  · exact h
  · exfalso
    have hg : gsum z c ≤ gsum z c2 :=
      List.sum_le_sum fun a _ => max_le_max (sub_le_sub_left h.le a) (le_refl 0)
    rw [h1, h2] at hg
    have := (div_le_div_right h2t).1 hg
    linarith

/-- The code's test value at `k+1` being nonpositive forces `z[k+1]` below the
threshold derived at `k`. -/
lemma testv_succ_nonpos_imp (z : List ℚ) (tau : ℚ) (htau : 0 < tau) (k : ℕ)
    (hk1 : k + 1 < z.length) (h : ¬ 0 < testv z tau (k + 1)) :
    z.getD (k + 1) 0 ≤ coefS tau k * cumsumAt z k := by
  have h2 : testv z tau (k + 1) ≤ 0 := not_lt.1 h
  unfold testv coefS at h2
  unfold coefS
  rw [cumsumAt_succ z k hk1] at h2
  set w := z.getD (k + 1) 0 with hw
  set S := cumsumAt z k with hS
  have hkc : (0 : ℚ) ≤ (k : ℚ) := Nat.cast_nonneg k
  have hD1 : (0 : ℚ) < 1 + ((k : ℚ) + 1) * 2 * tau := by nlinarith
  have hD2 : (0 : ℚ) < 1 + (((k : ℚ) + 1) + 1) * 2 * tau := by nlinarith
  have h3 : w - 2 * tau / (1 + (((k : ℚ) + 1) + 1) * 2 * tau) * (S + w) ≤ 0 := by
    have : ((k + 1 : ℕ) : ℚ) = (k : ℚ) + 1 := by push_cast; ring
    rw [this] at h2
    exact h2
  rw [div_mul_eq_mul_div, sub_nonpos, le_div_iff hD2] at h3
  rw [div_mul_eq_mul_div, le_div_iff hD1]
  nlinarith

/-- The sort-selected threshold solves the common threshold equation. -/
lemma gsum_theta (z : List ℚ) (tau : ℚ) (htau : 0 < tau)
    (hsorted : List.Sorted (fun a b => a ≥ b) z) (k : ℕ) (hklen : k < z.length)
    (hkpos : 0 < testv z tau k)
    (hkmax : ∀ j, j < z.length → 0 < testv z tau j → j ≤ k) :
    gsum z (coefS tau k * cumsumAt z k) =
      coefS tau k * cumsumAt z k / (2 * tau) := by
  set θ := coefS tau k * cumsumAt z k with hθ
  have hzk : θ < z.getD k 0 := by
    have := hkpos
    unfold testv at this
    rw [← hθ] at this
    linarith
  have htake : ∀ a ∈ z.take (k + 1), θ < a := fun a ha =>
    lt_of_lt_of_le hzk (mem_take_ge z hsorted k hklen a ha)
  have hdrop : ∀ a ∈ z.drop (k + 1), a ≤ θ := by
    intro a ha
    by_cases hk1 : k + 1 < z.length
    · have hno : ¬ 0 < testv z tau (k + 1) := fun hp =>
        absurd (hkmax (k + 1) hk1 hp) (by omega)
      have hnext : z.getD (k + 1) 0 ≤ θ := by
        rw [hθ]
        exact testv_succ_nonpos_imp z tau htau k hk1 hno
      exact le_trans (mem_drop_le z hsorted (k + 1) hk1 a ha) hnext
    · rw [List.drop_eq_nil_of_le (not_lt.1 hk1)] at ha
      cases ha
  rw [gsum_split z (k + 1) θ]
  have htakesum : gsum (z.take (k + 1)) θ = cumsumAt z k - (k + 1) * θ := by
    unfold gsum
    rw [List.map_congr_left
      (fun a (ha : a ∈ z.take (k + 1)) =>
        max_eq_left (by linarith [htake a ha] : (0 : ℚ) ≤ a - θ))]
    rw [sum_map_sub_const, List.length_take,
      Nat.min_eq_left (Nat.succ_le_of_lt hklen)]
    unfold cumsumAt
    push_cast
    ring
  have hdropsum : gsum (z.drop (k + 1)) θ = 0 := by
    unfold gsum
    rw [List.map_congr_left
      (fun a (ha : a ∈ z.drop (k + 1)) =>
        max_eq_right (by linarith [hdrop a ha] : a - θ ≤ (0 : ℚ)))]
    simp
  rw [htakesum, hdropsum, add_zero, hθ]
  unfold coefS
  have hkc : (0 : ℚ) ≤ (k : ℚ) := Nat.cast_nonneg k
  have hD1 : (0 : ℚ) < 1 + ((k : ℚ) + 1) * 2 * tau := by nlinarith
  field_simp
  ring

/-- The root-equation solution yields the same threshold equation with
`c = 2*tau/s`. -/
lemma gsum_root (x : List ℚ) (tau s : ℚ) (htau : 0 < tau) (hs : 0 < s)
    (hr : rootEqn x tau s) :
    gsum (descSort (x.map (fun b => |b|))) (2 * tau / s) =
      2 * tau / s / (2 * tau) := by
  set c := 2 * tau / s with hc
  have hsc : s * c = 2 * tau := by
    rw [hc, mul_div_cancel₀ _ hs.ne']
  have hmap : ∀ a : ℚ, max (|a| * s - 2 * tau) 0 = s * max (|a| - c) 0 := by
    intro a
    rw [mul_max_of_nonneg _ _ hs.le, mul_zero, mul_sub, hsc, mul_comm s |a|]
  unfold rootEqn at hr
  rw [List.map_congr_left (fun a (_ : a ∈ x) => hmap a),
    List.sum_map_mul_left] at hr
  have htr : gsum (descSort (x.map (fun b => |b|))) c =
      (x.map (fun a => max (|a| - c) 0)).sum := by
    unfold gsum
    rw [((descSort_perm (x.map (fun b => |b|))).map (fun b => max (b - c) 0)).sum_eq,
      List.map_map]
    rfl
  rw [htr]
  have hX : (x.map (fun a => max (|a| - c) 0)).sum = 1 / s := by
    field_simp
    linarith [hr]
  rw [hX, hc]
  field_simp

lemma div_abs_eq_sgn (a : ℚ) (ha : a ≠ 0) : a / |a| = sgn a := by
  rcases lt_or_gt_of_ne ha with hneg | hpos
  · rw [abs_of_neg hneg, div_neg, div_self ha]
    unfold sgn
    rw [if_neg (by linarith), if_pos hneg]
  · rw [abs_of_pos hpos, div_self ha]
    unfold sgn
    rw [if_pos hpos]

/-- Componentwise: the root-based rational shrinkage at `s` equals
soft-thresholding at `θ` when `s * θ = 2 * tau`. -/
lemma soft_eq_rootFormula (tau s θ a : ℚ) (hs : 0 < s) (hθ : 0 < θ)
    (hsθ : s * θ = 2 * tau) :
    max (|a| * s - 2 * tau) 0 * a / (max (|a| * s - 2 * tau) 0 + 2 * tau) =
      max 0 (|a| - θ) * sgn a := by
  rcases le_or_lt |a| θ with h | h
  · have h1 : |a| * s - 2 * tau ≤ 0 := by
      nlinarith [mul_le_mul_of_nonneg_right h hs.le]
    rw [max_eq_right h1, max_eq_left (by linarith : |a| - θ ≤ (0 : ℚ))]
    simp
  · have ha0 : a ≠ 0 := by
      intro h0
      rw [h0, abs_zero] at h
      linarith
    have hl : 0 < |a| * s - 2 * tau := by
      nlinarith [mul_lt_mul_of_pos_right h hs]
    rw [max_eq_left hl.le, max_eq_right (by linarith : (0 : ℚ) ≤ |a| - θ)]
    rw [show |a| * s - 2 * tau + 2 * tau = s * |a| from by ring]
    rw [show |a| * s - 2 * tau = s * (|a| - θ) from by rw [← hsθ]; ring]
    rw [show s * (|a| - θ) * a = s * ((|a| - θ) * a) from by ring]
    rw [mul_div_mul_left _ _ hs.ne']
    rw [mul_div_assoc, div_abs_eq_sgn a ha0]

/-- **C1.** One call to `CG.m_step` transforms the state `(x, r, p)` exactly
by the classic CG recurrence: with `Ap = A p`, `alpha = ‖r‖₂² / (pᵀAp)`,
`r_new = r - alpha * Ap` and `beta = ‖r_new‖₂² / ‖r‖₂²`, the new state is
`x + alpha * p`, `r_new`, `r_new + beta * p`; in particular the in-place
updates `p *= beta; p += r` equal `r_new + beta * p_old`. -/
theorem cg_m_step_recurrence :
    ∀ (A : List ℝ → List ℝ) (mst : MState),
      m_step A mst =
        ⟨mst.b,
         vplus mst.x
           (smulL (sumSq mst.residual / dotL mst.conjugate_dir (A mst.conjugate_dir))
             mst.conjugate_dir),
         vsub mst.residual
           (smulL (sumSq mst.residual / dotL mst.conjugate_dir (A mst.conjugate_dir))
             (A mst.conjugate_dir)),
         vplus
           (vsub mst.residual
             (smulL (sumSq mst.residual / dotL mst.conjugate_dir (A mst.conjugate_dir))
               (A mst.conjugate_dir)))
           (smulL
             (sumSq
               (vsub mst.residual
                 (smulL (sumSq mst.residual / dotL mst.conjugate_dir (A mst.conjugate_dir))
                   (A mst.conjugate_dir))) / sumSq mst.residual)
             mst.conjugate_dir)⟩ := by
  intro A mst
  unfold m_step
  simp only [norm2_sq]
  ext1
  · rfl
  · rfl
  · rfl
  · exact vplus_comm _ _

/-- **C7.** `CG.default_stop_crit` recomputes the explicit residual
`b - A x` from the monitored iterate `x` and declares convergence exactly
when its ℓ2 norm falls below `1e-4`; the stored recurrence residual plays no
role (two states agreeing on `b` stop identically for the same `x`). -/
theorem cg_default_stop :
    ∀ (A : List ℝ → List ℝ) (mst mst2 : MState) (x : List ℝ),
      ((default_stop_crit A mst).stop x ↔ norm2 (vsub mst.b (A x)) < 1 / 10000) ∧
      (mst2.b = mst.b →
        ((default_stop_crit A mst2).stop x ↔ (default_stop_crit A mst).stop x)) := by
  intro A mst mst2 x
  refine ⟨Iff.rfl, fun h => ?_⟩
  unfold default_stop_crit AbsErrorCrit.stop
  rw [h]

/-- Witness for C7: two states with equal `b` but different stored residuals
and directions stop identically. -/
theorem cg_default_stop_witness :
    (default_stop_crit (fun v => v) ⟨[1], [2], [7], [3]⟩).stop [0] ↔
    (default_stop_crit (fun v => v) ⟨[1], [0], [5], [0]⟩).stop [0] :=
  (cg_default_stop (fun v => v) ⟨[1], [0], [5], [0]⟩ ⟨[1], [2], [7], [3]⟩ [0]).2 rfl

/-- **C5.** Ball-projection idempotence: each of the three ball indicator
proxes returns the input unchanged whenever the input already lies in the
ball (and in particular does not fail). -/
theorem ball_prox_idempotent :
    ∀ (radius tau : ℚ) (x : List ℚ) (radius2 tau2 : ℝ) (y : List ℝ),
      (sumAbs x ≤ radius → L1Ball_prox radius x tau = some x) ∧
      (maxAbs x ≤ radius → LInfinityBall_prox radius x tau = x) ∧
      (norm2 y ≤ radius2 → L2Ball_prox radius2 y tau2 = y) := by
  intro radius tau x radius2 tau2 y
  refine ⟨fun h => ?_, fun h => ?_, fun h => ?_⟩
  · unfold L1Ball_prox
    rw [if_pos h]
  · unfold LInfinityBall_prox
    rw [if_pos h]
  · unfold L2Ball_prox
    rw [if_pos h]

/-- Witness for C5: members of the unit balls are returned unchanged. -/
theorem ball_prox_idempotent_witness :
    L1Ball_prox 1 [(1 : ℚ) / 2, -(1 : ℚ) / 4] 1 = some [(1 : ℚ) / 2, -(1 : ℚ) / 4] ∧
    LInfinityBall_prox 1 [(1 : ℚ) / 2, -(1 : ℚ) / 4] 1 = [(1 : ℚ) / 2, -(1 : ℚ) / 4] ∧
    L2Ball_prox 1 [(0 : ℝ), 0] 1 = [(0 : ℝ), 0] := by
  obtain ⟨h1, h2, h3⟩ :=
    ball_prox_idempotent 1 1 [(1 : ℚ) / 2, -(1 : ℚ) / 4] 1 1 [(0 : ℝ), 0]
  exact ⟨h1 (by norm_num [sumAbs, abs_of_pos]), h2 (by norm_num [maxAbs, abs_of_pos]),
    h3 (by norm_num [norm2, sumSq])⟩

/-- **C6.** Round trip of the ℓ2-ball projection: the output norm never
exceeds the (nonnegative) radius, and when the input lies strictly outside
the ball the output is `radius * x / ‖x‖₂`, whose norm equals the radius
exactly. -/
theorem l2ball_round_trip :
    ∀ (radius tau : ℝ) (x : List ℝ), 0 ≤ radius →
      norm2 (L2Ball_prox radius x tau) ≤ radius ∧
      (radius < norm2 x →
        norm2 (L2Ball_prox radius x tau) = radius ∧
        L2Ball_prox radius x tau = x.map (fun a => radius * a / norm2 x)) := by
  intro radius tau x hr
  by_cases h : norm2 x ≤ radius
  · refine ⟨?_, fun hlt => absurd hlt (not_lt.2 h)⟩
    unfold L2Ball_prox
    rw [if_pos h]
    exact h
  · have hlt : radius < norm2 x := not_le.1 h
    have hn : 0 < norm2 x := lt_of_le_of_lt hr hlt
    have hmap : L2Ball_prox radius x tau = smulL (radius / norm2 x) x := by
      unfold L2Ball_prox smulL
      rw [if_neg h]
      exact List.map_congr_left fun a _ => (div_mul_eq_mul_div radius (norm2 x) a).symm
    have hnorm : norm2 (L2Ball_prox radius x tau) = radius := by
      rw [hmap, norm2_smulL, abs_of_nonneg (div_nonneg hr hn.le),
        div_mul_cancel₀ radius hn.ne']
    refine ⟨hnorm.le, fun _ => ⟨hnorm, ?_⟩⟩
    unfold L2Ball_prox
    rw [if_neg h]

/-- Witness for C6: the point `[2]` outside the unit ball projects to norm
exactly `1`. -/
theorem l2ball_round_trip_witness :
    norm2 (L2Ball_prox 1 [(2 : ℝ)] 1) = 1 := by
  have hn : norm2 [(2 : ℝ)] = 2 := by
    have hs : sumSq [(2 : ℝ)] = 4 := by norm_num [sumSq]
    rw [norm2, hs, show (4 : ℝ) = 2 ^ 2 by norm_num,
      Real.sqrt_sq (by norm_num : (0 : ℝ) ≤ 2)]
  exact ((l2ball_round_trip 1 1 [(2 : ℝ)] (by norm_num)).2 (by rw [hn]; norm_num)).1

/-- **C2 (counterexample).** The claim fails as stated ("for every input
vector x"): on the all-zero input the root-based prox returns the input
unchanged (its `norm > 0` guard) while the sort-based prox fails
(`xp.max` over an empty index set), so the two do not return the same
result. -/
theorem squaredL1_sort_vs_root_zero :
    sortProx [0, 0] 1 = none ∧ prox_root [0, 0] 1 1 = [0, 0] := by
  constructor
  · norm_num [sortProx, descSort, List.insertionSort, List.orderedInsert,
      testArray, testv, coefS, cumsumAt, lastPos, List.range_succ]
  · norm_num [prox_root, sumSq]

/-- **C2 (amended).** For every input with at least one nonzero entry and
every `tau > 0`, the sort-based prox succeeds and agrees exactly (in exact
arithmetic) with the root-based prox evaluated at the exact root of its
bracketing equation (`s` standing for `sqrt(tau/mu_star)`). -/
theorem squaredL1_sort_eq_root :
    ∀ (x : List ℚ) (tau s : ℚ), 0 < tau → 0 < s → (∃ a ∈ x, a ≠ 0) →
      rootEqn x tau s → sortProx x tau = some (prox_root x tau s) := by
  intro x tau s htau hs hx hr
  set z := descSort (x.map (fun b => |b|)) with hz
  have hsorted : List.Sorted (fun a b => a ≥ b) z := descSort_sorted _
  have hnn : ∀ a ∈ z, 0 ≤ a := descSort_abs_nonneg x
  have h0 : 0 < z.getD 0 0 := descSort_head_pos x hx
  have hlen : 0 < z.length := descSort_abs_length_pos x hx
  have ht0 : 0 < testv z tau 0 := testv_zero_pos z tau htau h0 hlen
  obtain ⟨k, hk⟩ : ∃ k, lastPos (testArray z tau) = some k := by
    cases hcase : lastPos (testArray z tau) with
    | some k => exact ⟨k, rfl⟩
    | none =>
      exact absurd (by rw [testArray_getD z tau hlen]; exact ht0)
        (lastPos_none_spec _ hcase 0 (by rw [testArray_length]; exact hlen))
  obtain ⟨hklen, hkpos, hkmax⟩ := lastPos_some_spec _ _ hk
  rw [testArray_length] at hklen
  rw [testArray_getD z tau hklen] at hkpos
  have hkmax2 : ∀ j, j < z.length → 0 < testv z tau j → j ≤ k := by
    intro j hj hjpos
    exact hkmax j (by rw [testArray_length]; exact hj)
      (by rw [testArray_getD z tau hj]; exact hjpos)
  set θ := coefS tau k * cumsumAt z k with hθdef
  have hθpos : 0 < θ :=
    mul_pos (coefS_pos tau htau k) (cumsumAt_pos z h0 hnn k)
  have hg1 : gsum z θ = θ / (2 * tau) :=
    gsum_theta z tau htau hsorted k hklen hkpos hkmax2
  have hg2 : gsum z (2 * tau / s) = 2 * tau / s / (2 * tau) := by
    rw [hz]
    exact gsum_root x tau s htau hs hr
  have hc : 2 * tau / s = θ := gsum_zero_unique z tau _ _ htau hg2 hg1
  have hsθ : s * θ = 2 * tau := by
    rw [← hc, mul_div_cancel₀ _ hs.ne']
  have hx2 : 0 < sumSq x := by
    obtain ⟨b, hb, hb0⟩ := hx
    have hmem : b * b ∈ x.map (fun a => a * a) := List.mem_map_of_mem _ hb
    have hle : b * b ≤ sumSq x :=
      List.single_le_sum
        (fun a ha => by
          obtain ⟨c, _, rfl⟩ := List.mem_map.1 ha
          exact mul_self_nonneg c)
        _ hmem
    exact lt_of_lt_of_le (mul_self_pos.2 hb0) hle
  have hsort : sortProx x tau =
      some (x.map (fun a => max 0 (|a| - θ) * sgn a)) := by
    unfold sortProx
    rw [← hz]
    dsimp only
    rw [hk]
  have hroot : prox_root x tau s =
      x.map (fun a =>
        max (|a| * s - 2 * tau) 0 * a / (max (|a| * s - 2 * tau) 0 + 2 * tau)) := by
    unfold prox_root
    rw [if_pos hx2]
  rw [hsort, hroot]
  exact congrArg some
    (List.map_congr_left fun a _ =>
      (soft_eq_rootFormula tau s θ a hs hθpos hsθ).symm)

/-- Witness for C2 (amended): `x = [1]`, `tau = 1/2`, with exact root
`s = 2` (`max(1*2 - 1, 0)` sums to `1`), both algorithms return `[1/2]`. -/
theorem squaredL1_sort_eq_root_witness :
    sortProx [(1 : ℚ)] (1 / 2) = some (prox_root [(1 : ℚ)] (1 / 2) 2) :=
  squaredL1_sort_eq_root [(1 : ℚ)] (1 / 2) 2 (by norm_num) (by norm_num)
    ⟨1, by simp, one_ne_zero⟩ (by norm_num [rootEqn])

/-- **C8.** On nonzero input with `tau > 0`, `_prox_sort` follows exactly the
claimed steps: the selected index is the largest index at which the test
quantity `z_k - (2*tau/(1+(k+1)*2*tau))*cumsum_k` is strictly positive (no
other tie-break), and the result is the soft-threshold of the input at
`(2*tau/(1+(k+1)*2*tau))*cumsum_k`. -/
theorem sort_prox_steps :
    ∀ (x : List ℚ) (tau : ℚ), 0 < tau → (∃ a ∈ x, a ≠ 0) →
      (lastPos (testArray (descSort (x.map (fun a => |a|))) tau)).isSome = true ∧
      ∀ k, lastPos (testArray (descSort (x.map (fun a => |a|))) tau) = some k →
        k < (descSort (x.map (fun a => |a|))).length ∧
        0 < testv (descSort (x.map (fun a => |a|))) tau k ∧
        (∀ j, j < (descSort (x.map (fun a => |a|))).length →
          0 < testv (descSort (x.map (fun a => |a|))) tau j → j ≤ k) ∧
        sortProx x tau =
          some (x.map (fun a =>
            sgn a *
              max 0 (|a| -
                coefS tau k * cumsumAt (descSort (x.map (fun a => |a|))) k))) := by
  intro x tau htau hx
  set z := descSort (x.map (fun b => |b|)) with hz
  have h0 : 0 < z.getD 0 0 := descSort_head_pos x hx
  have hlen : 0 < z.length := descSort_abs_length_pos x hx
  have ht0 : 0 < testv z tau 0 := testv_zero_pos z tau htau h0 hlen
  have hsome : (lastPos (testArray z tau)).isSome = true := by
    cases hcase : lastPos (testArray z tau) with
    | some k => rfl
    | none =>
      exact absurd (by rw [testArray_getD z tau hlen]; exact ht0)
        (lastPos_none_spec _ hcase 0 (by rw [testArray_length]; exact hlen))
  refine ⟨hsome, ?_⟩
  intro k hk
  obtain ⟨hklen, hkpos, hkmax⟩ := lastPos_some_spec _ _ hk
  rw [testArray_length] at hklen
  rw [testArray_getD z tau hklen] at hkpos
  refine ⟨hklen, hkpos, ?_, ?_⟩
  · intro j hj hjpos
    exact hkmax j (by rw [testArray_length]; exact hj)
      (by rw [testArray_getD z tau hj]; exact hjpos)
  · have hsort : sortProx x tau =
        some (x.map (fun a => max 0 (|a| - coefS tau k * cumsumAt z k) * sgn a)) := by
      unfold sortProx
      rw [← hz]
      dsimp only
      rw [hk]
    rw [hsort]
    exact congrArg some (List.map_congr_left fun a _ => mul_comm _ _)

/-- Witness for C8: on `x = [-3, 1]`, `tau = 1`, the selected index is `0`
and the output is the soft-threshold at `2`. -/
theorem sort_prox_steps_witness :
    0 < testv (descSort ([(-3 : ℚ), 1].map (fun a => |a|))) 1 0 ∧
    sortProx [(-3 : ℚ), 1] 1 =
      some ([(-3 : ℚ), 1].map (fun a =>
        sgn a *
          max 0 (|a| -
            coefS 1 0 * cumsumAt (descSort ([(-3 : ℚ), 1].map (fun a => |a|))) 0))) := by
  have hlast : lastPos (testArray (descSort ([(-3 : ℚ), 1].map (fun a => |a|))) 1) =
      some 0 := by
    norm_num [descSort, List.insertionSort, List.orderedInsert, testArray,
      testv, coefS, cumsumAt, lastPos, List.range_succ]
  have h := (sort_prox_steps [(-3 : ℚ), 1] 1 (by norm_num)
    ⟨-3, by simp, by norm_num⟩).2 0 hlast
  exact ⟨h.2.1, h.2.2.2⟩

end Pycsou
